import Mathlib

/-! Shared-memory transfer of a key-value buffer.

A shallow embedding of `main.go`: the two transfer functions `writeToShm` and
`readFromShm`, the advisory file lock around them, and the run of `main`.
The record store of package `litekv` is imported by `main.go` but is not part of
the sources; it is modelled further down from the specification.
-/

set_option autoImplicit false
set_option linter.unusedVariables false

namespace ShmShare

/-- One byte of a Go `[]byte`. -/
abbrev Byte := Fin 256

/-- The constant `shmSize` of `main.go`. -/
def shmSize : Nat := 4096

/-- Go `error` values that the transfer functions can return. -/
inductive GoError where
  /-- The value of `fmt.Errorf("data size exceeds shared memory size")`. -/
  | dataTooLarge
  /-- The value of `fmt.Errorf("requested size exceeds shared memory size")`. -/
  | sizeTooLarge
  /-- An error number returned by `syscall.Flock`. -/
  | errno (n : Nat)
  deriving DecidableEq, Repr

/-- What the process does to the lock and to the mapped bytes, in order. -/
inductive Event where
  /-- The call `lockFile(lock)` returned `nil`. -/
  | lockOk
  /-- The call `lockFile(lock)` returned an error. -/
  | lockErr (e : GoError)
  /-- The call `unlockFile(lock)` was made. -/
  | unlock
  /-- The first `n` bytes of the mapping were written. -/
  | shmWrite (n : Nat)
  /-- The first `n` bytes of the mapping were read. -/
  | shmRead (n : Nat)
  deriving DecidableEq, Repr

/-- The memory behind `addr` (every byte from its first element up to its
capacity) and the log of events so far. -/
structure World where
  mem : List Byte
  trace : List Event
  deriving DecidableEq, Repr

/-- A Go slice header whose first element is the first byte of the mapping:
`addr` itself and every `addr[:n]`. Its capacity is the length of `World.mem`. -/
structure ShmSlice where
  len : Nat
  deriving DecidableEq, Repr

/-- The bytes a slice of the mapping shows in a given world. -/
def ShmSlice.bytes (s : ShmSlice) (w : World) : List Byte :=
  w.mem.take s.len

/-- Result of a Go call that may end in a run-time panic instead of returning. -/
inductive Outcome (α : Type) where
  | ret (a : α)
  | panicked
  deriving DecidableEq, Repr

/-- Appends one event to the log. -/
def World.emit (w : World) (e : Event) : World :=
  { w with trace := w.trace ++ [e] }

/-- The function `lockFile`: `flockRes` is what `syscall.Flock(fd, LOCK_EX)` returns
at this call (`none` for `nil`). -/
def lockFile (flockRes : Option GoError) (w : World) : World × Option GoError :=
  match flockRes with
  | none => (w.emit Event.lockOk, none)
  | some e => (w.emit (Event.lockErr e), some e)

/-- The function `unlockFile`, as used in `defer unlockFile(lock)`: the value it
returns is dropped by the deferred call. -/
def unlockFile (w : World) : World :=
  w.emit Event.unlock

/-- The builtin `copy(addr, data)`: the first `min(len(addr), len(data))` bytes
of the mapping are overwritten by the same number of bytes of `data`. -/
def copy (addr : ShmSlice) (data : List Byte) (w : World) : World :=
  let n := min addr.len data.length
  { mem := data.take n ++ w.mem.drop n, trace := w.trace ++ [Event.shmWrite n] }

/-- The slice expression `addr[:size]`: needs `0 <= size <= cap(addr)`, else the
run time panics. It builds a header and touches no byte of the mapping. -/
def reslice (_addr : ShmSlice) (size : Int) (w : World) : Option ShmSlice :=
  if 0 ≤ size ∧ size ≤ (w.mem.length : Int) then some ⟨size.toNat⟩ else none

/-- The function `writeToShm`. -/
def writeToShm (addr : ShmSlice) (data : List Byte) (flockRes : Option GoError)
    (w : World) : World × Option GoError :=
  if data.length > shmSize then
    (w, some GoError.dataTooLarge)
  else
    match lockFile flockRes w with
    | (w1, some e) => (w1, some e)
    | (w1, none) => (unlockFile (copy addr data w1), none)

/-- The function `readFromShm`. The pair is Go's `([]byte, error)`, `none` for
`nil`; the deferred `unlockFile` also runs when the slice expression panics. -/
def readFromShm (addr : ShmSlice) (size : Int) (flockRes : Option GoError) (w : World) :
    World × Outcome (Option ShmSlice × Option GoError) :=
  if size > (shmSize : Int) then
    (w, Outcome.ret (none, some GoError.sizeTooLarge))
  else
    match lockFile flockRes w with
    | (w1, some e) => (w1, Outcome.ret (none, some e))
    | (w1, none) =>
      match reslice addr size w1 with
      | some s => (unlockFile w1, Outcome.ret (some s, none))
      | none => (unlockFile w1, Outcome.panicked)

/-- The events a call added to the log, given the worlds before and after it. -/
def newEvents (w w' : World) : List Event :=
  w'.trace.drop w.trace.length

/-- Number of `lockOk` events in a log. -/
def acquisitions (t : List Event) : Nat :=
  t.count Event.lockOk

/-- Number of `unlock` events in a log. -/
def releases (t : List Event) : Nat :=
  t.count Event.unlock

/-- Whether the lock is held after a log, starting from `held`. -/
def heldAfter (held : Bool) : List Event → Bool
  | [] => held
  | Event.lockOk :: t => heldAfter true t
  | Event.unlock :: t => heldAfter false t
  | _ :: t => heldAfter held t

/-- Whether every read and write of the mapping in a log happens while the lock
is held, starting from `held`. -/
def disciplined (held : Bool) : List Event → Bool
  | [] => true
  | Event.lockOk :: t => disciplined true t
  | Event.unlock :: t => disciplined false t
  | Event.shmWrite _ :: t => held && disciplined held t
  | Event.shmRead _ :: t => held && disciplined held t
  | Event.lockErr _ :: t => disciplined held t

/-! ## The record store of package `litekv` -/

/-- Modelled from the spec: the byte order of the two length fields of a `litekv`
record, which the spec calls fixed and does not name. -/
inductive Endian where
  | little
  | big
  deriving DecidableEq, Repr

/-- Modelled from the spec: the errors of the `litekv` codec, store and rebuilder. -/
inductive KvError where
  | MalformedRecord
  | KeyNotFound
  | CorruptIndex
  deriving DecidableEq, Repr

/-- The byte with value `n % 256`. -/
def byteOf (n : Nat) : Byte :=
  ⟨n % 256, Nat.mod_lt n (by decide)⟩

/-- Modelled from the spec: the 4-byte unsigned length field of the record codec of
`litekv` (the package is imported by `main.go` and absent from the sources). The
spec fixes the width and leaves the byte order open, so it is a parameter. -/
def putU32 (e : Endian) (n : Nat) : List Byte :=
  match e with
  | Endian.little => [byteOf n, byteOf (n / 256), byteOf (n / 65536), byteOf (n / 16777216)]
  | Endian.big => [byteOf (n / 16777216), byteOf (n / 65536), byteOf (n / 256), byteOf n]

/-- Modelled from the spec: reading the 4-byte length field at the head of the
remaining bytes of a `litekv` buffer; `none` when fewer than 4 bytes remain. -/
def getU32 (e : Endian) : List Byte → Option Nat
  | b0 :: b1 :: b2 :: b3 :: _ =>
    match e with
    | Endian.little => some (b0.val + 256 * b1.val + 65536 * b2.val + 16777216 * b3.val)
    | Endian.big => some (b3.val + 256 * b2.val + 65536 * b1.val + 16777216 * b0.val)
  | _ => none

/-- Modelled from the spec: the record encoding of `litekv`,
`u32(key_len) || key || u32(value_len) || value`. -/
def encodeRecord (e : Endian) (key value : List Byte) : List Byte :=
  putU32 e key.length ++ key ++ putU32 e value.length ++ value

/-- Modelled from the spec: the record decoding of `litekv` at a starting offset.
It gives the key, the value and the offset of the next record, and fails with
`MalformedRecord` when fewer than 4 bytes remain for a length field or a length
field claims more bytes than remain. -/
def decodeRecord (e : Endian) (buf : List Byte) (off : Nat) :
    Except KvError (List Byte × List Byte × Nat) :=
  match getU32 e (buf.drop off) with
  | none => Except.error KvError.MalformedRecord
  | some klen =>
    if klen > (buf.drop (off + 4)).length then Except.error KvError.MalformedRecord
    else
      match getU32 e (buf.drop (off + 4 + klen)) with
      | none => Except.error KvError.MalformedRecord
      | some vlen =>
        if vlen > (buf.drop (off + 4 + klen + 4)).length then
          Except.error KvError.MalformedRecord
        else
          Except.ok ((buf.drop (off + 4)).take klen,
            (buf.drop (off + 4 + klen + 4)).take vlen, off + 8 + klen + vlen)

/-- Modelled from the spec: the index of a `litekv` store, from a key to the
offset of its most recent record. -/
abbrev KvIndex := List (List Byte × Nat)

/-- Modelled from the spec: the lookup of a key in the index of a `litekv` store. -/
def KvIndex.get (key : List Byte) : KvIndex → Option Nat
  | [] => none
  | (k, off) :: rest => if k = key then some off else KvIndex.get key rest

/-- Modelled from the spec: setting or overwriting the entry of a key in the index
of a `litekv` store. -/
def KvIndex.set (key : List Byte) (off : Nat) (idx : KvIndex) : KvIndex :=
  (key, off) :: idx.filter (fun p => decide (p.1 ≠ key))

/-- Modelled from the spec: the type `litekv.KeyValueStore`, of which `main.go`
shows the field `Data`; a store made as `KeyValueStore{Data: b}` has an empty
index. -/
structure KeyValueStore where
  Data : List Byte := []
  Index : KvIndex := []
  deriving DecidableEq, Repr

namespace KeyValueStore

/-- Modelled from the spec: the method `Write` of `litekv.KeyValueStore`. It
appends the encoded record and points the key at the offset where it starts. -/
def Write (e : Endian) (kvs : KeyValueStore) (key value : List Byte) : KeyValueStore :=
  { Data := kvs.Data ++ encodeRecord e key value,
    Index := KvIndex.set key kvs.Data.length kvs.Index }

/-- Modelled from the spec: the method `Read` of `litekv.KeyValueStore`. -/
def Read (e : Endian) (kvs : KeyValueStore) (key : List Byte) : Except KvError (List Byte) :=
  match KvIndex.get key kvs.Index with
  | none => Except.error KvError.KeyNotFound
  | some off =>
    match decodeRecord e kvs.Data off with
    | Except.ok (_, value, _) => Except.ok value
    | Except.error _ => Except.error KvError.CorruptIndex

/-- Modelled from the spec: the scan of the index rebuilder of `litekv`. While
bytes remain it decodes the record at the offset, points its key at the offset
and moves to the next record; it stops cleanly at the end of the buffer and with
`MalformedRecord` at a record that does not decode. The spec does not say what
the index holds after a failed scan; the entries are set one record at a time as
it describes, so those set before the failure are kept. The result is `none`
only when the step budget runs out. -/
def rebuildLoop (e : Endian) (data : List Byte) : Nat → Nat → KvIndex →
    Option (KvIndex × Option KvError)
  | 0, _, _ => none
  | fuel + 1, off, idx =>
    if data.length ≤ off then some (idx, none)
    else
      match decodeRecord e data off with
      | Except.error _ => some (idx, some KvError.MalformedRecord)
      | Except.ok (key, _, next) => rebuildLoop e data fuel next (KvIndex.set key off idx)

/-- Modelled from the spec: the method `RebuildIndex` of `litekv.KeyValueStore`,
a scan from offset 0 into a fresh index. Every record takes at least 8 bytes, so
`len(Data) + 1` steps are enough. -/
def RebuildIndex (e : Endian) (kvs : KeyValueStore) : Option (KeyValueStore × Option KvError) :=
  match rebuildLoop e kvs.Data (kvs.Data.length + 1) 0 [] with
  | none => none
  | some (idx, err) => some ({ kvs with Index := idx }, err)

end KeyValueStore

/-- The store after a sequence of `Write` calls on a given store. -/
def writesFrom (e : Endian) (kvs : KeyValueStore) (ws : List (List Byte × List Byte)) :
    KeyValueStore :=
  ws.foldl (fun s p => s.Write e p.1 p.2) kvs

/-- The store after a sequence of `Write` calls on the empty store. -/
def writeAll (e : Endian) (ws : List (List Byte × List Byte)) : KeyValueStore :=
  writesFrom e {} ws

/-- The concatenated encodings of a sequence of records. -/
def encodeAll (e : Endian) : List (List Byte × List Byte) → List Byte
  | [] => []
  | (k, v) :: rest => encodeRecord e k v ++ encodeAll e rest

/-- The record invariant of the data model: both lengths fit the 32-bit length
field. -/
def fitsU32 (p : List Byte × List Byte) : Prop :=
  p.1.length < 4294967296 ∧ p.2.length < 4294967296

/-- Whether a store answers `Read(key)` with `value`, also after more bytes are
appended to its buffer. -/
def answers (e : Endian) (kvs : KeyValueStore) (key value : List Byte) : Prop :=
  ∀ (post : List Byte) (idx : KvIndex), KvIndex.get key idx = KvIndex.get key kvs.Index →
    KeyValueStore.Read e { Data := kvs.Data ++ post, Index := idx } key = Except.ok value

/-- The value of the most recent write of a key in a sequence of writes. -/
def lastWritten (key : List Byte) : List (List Byte × List Byte) → Option (List Byte)
  | [] => none
  | (k, v) :: rest =>
    match lastWritten key rest with
    | some v' => some v'
    | none => if k = key then some v else none

/-! ## The run of `main` -/

/-- The bytes of `"foo"`. -/
def foo : List Byte := [102, 111, 111]
/-- The bytes of `"foo2"`. -/
def foo2 : List Byte := [102, 111, 111, 50]
/-- The bytes of `"foo3"`. -/
def foo3 : List Byte := [102, 111, 111, 51]
/-- The bytes of `"foo4"`. -/
def foo4 : List Byte := [102, 111, 111, 52]
/-- The bytes of `"bar"`. -/
def bar : List Byte := [98, 97, 114]
/-- The bytes of `"bar2"`. -/
def bar2 : List Byte := [98, 97, 114, 50]
/-- The bytes of `"bar3"`. -/
def bar3 : List Byte := [98, 97, 114, 51]
/-- The bytes of `"bar4"`. -/
def bar4 : List Byte := [98, 97, 114, 52]
/-- The bytes of `"missing"`. -/
def missing : List Byte := [109, 105, 115, 115, 105, 110, 103]

/-- The four writes at the start of `main`. -/
def mainWrites : List (List Byte × List Byte) :=
  [(foo, bar), (foo2, bar2), (foo3, bar3), (foo4, bar4)]

/-- A content of `/dev/shm/shm_example` left by an earlier user of the file: 62
bytes, then the record of key `"foo"` with a value of 4023 zero bytes, which
fills the file up to `shmSize`. -/
def shadowFile (e : Endian) : List Byte :=
  List.replicate 62 0 ++ encodeRecord e foo (List.replicate 4023 0)

/-- The function `mapShm`, when `Truncate` and `Mmap` succeed: the file is cut or
zero-extended to `shmSize` bytes and mapped whole. `file` is what
`/dev/shm/shm_example` held when `createShm` opened it (nothing if it was created
by that call, which does not truncate an existing file). -/
def mapShm (file : List Byte) : World × ShmSlice :=
  ({ mem := (file ++ List.replicate shmSize 0).take shmSize, trace := [] }, ⟨shmSize⟩)

/-- Lines 27 to 56 of `main`, with `kvs.Data` as `data`, once the file, the lock
and the mapping exist: the write, the read of `shmSize` bytes, and the
`fmt.Println` of `kvs2.Data`, which reads every byte of the slice it was given.
The second component is `readMsg`, or `none` when `main` stops in `log.Fatalf`
or panics. -/
def mainTransfer (data file : List Byte) (flock1 flock2 : Option GoError) :
    World × Option ShmSlice :=
  match writeToShm (mapShm file).2 data flock1 (mapShm file).1 with
  | (w1, some _) => (w1, none)
  | (w1, none) =>
    match readFromShm (mapShm file).2 (shmSize : Int) flock2 w1 with
    | (w2, Outcome.ret (some s, none)) => (w2.emit (Event.shmRead s.len), some s)
    | (w2, _) => (w2, none)

/-- The function `main` up to `kvs2.RebuildIndex()`, whose result `main` does not
look at: the final world and the store `kvs2`. -/
def main (e : Endian) (file : List Byte) (flock1 flock2 : Option GoError) :
    World × Option KeyValueStore :=
  match mainTransfer (writeAll e mainWrites).Data file flock1 flock2 with
  | (w, none) => (w, none)
  | (w, some s) =>
    match KeyValueStore.RebuildIndex e { Data := s.bytes w } with
    | none => (w, none)
    | some (kvs2, _) => (w, some kvs2)

end ShmShare

/-! ## Lemmas on the transfer functions -/

namespace ShmShare

theorem newEvents_append (w : World) (m : List Byte) (t : List Event) :
    newEvents w { mem := m, trace := w.trace ++ t } = t := by
  simp [newEvents]

theorem newEvents_self (w : World) : newEvents w w = [] := by
  simp [newEvents]

/-- A write that passes the size check and gets the lock. -/
theorem writeToShm_locked (addr : ShmSlice) (data : List Byte) (w : World)
    (h : data.length ≤ shmSize) :
    writeToShm addr data none w =
      ({ mem := data.take (min addr.len data.length) ++ w.mem.drop (min addr.len data.length),
         trace := w.trace ++ [Event.lockOk, Event.shmWrite (min addr.len data.length),
           Event.unlock] }, none) := by
  have h' : ¬ data.length > shmSize := by omega
  simp [writeToShm, h', lockFile, unlockFile, copy, World.emit]

/-- A write whose lock acquisition fails. -/
theorem writeToShm_lockErr (addr : ShmSlice) (data : List Byte) (w : World) (e : GoError)
    (h : data.length ≤ shmSize) :
    writeToShm addr data (some e) w =
      ({ mem := w.mem, trace := w.trace ++ [Event.lockErr e] }, some e) := by
  have h' : ¬ data.length > shmSize := by omega
  simp [writeToShm, h', lockFile, World.emit]

/-- A write that fails the size check. -/
theorem writeToShm_tooLarge (addr : ShmSlice) (data : List Byte) (w : World)
    (r : Option GoError) (h : data.length > shmSize) :
    writeToShm addr data r w = (w, some GoError.dataTooLarge) := by
  simp [writeToShm, h]

/-- A read that fails the size check. -/
theorem readFromShm_tooLarge (addr : ShmSlice) (size : Int) (w : World)
    (r : Option GoError) (h : size > (shmSize : Int)) :
    readFromShm addr size r w = (w, Outcome.ret (none, some GoError.sizeTooLarge)) := by
  simp [readFromShm, h]

/-- A read whose lock acquisition fails. -/
theorem readFromShm_lockErr (addr : ShmSlice) (size : Int) (w : World) (e : GoError)
    (h : size ≤ (shmSize : Int)) :
    readFromShm addr size (some e) w =
      ({ mem := w.mem, trace := w.trace ++ [Event.lockErr e] },
        Outcome.ret (none, some e)) := by
  have h' : ¬ size > (shmSize : Int) := by omega
  simp [readFromShm, h', lockFile, World.emit]

/-- A read that gets the lock and whose size is within the capacity of `addr`. -/
theorem readFromShm_locked (addr : ShmSlice) (size : Int) (w : World)
    (h : size ≤ (shmSize : Int)) (h0 : 0 ≤ size) (hcap : size ≤ (w.mem.length : Int)) :
    readFromShm addr size none w =
      ({ mem := w.mem, trace := w.trace ++ [Event.lockOk, Event.unlock] },
        Outcome.ret (some ⟨size.toNat⟩, none)) := by
  have h' : ¬ size > (shmSize : Int) := by omega
  simp [readFromShm, h', lockFile, unlockFile, reslice, World.emit, h0, hcap]

/-- A read that gets the lock and whose size is outside `0 .. cap(addr)`. -/
theorem readFromShm_panic (addr : ShmSlice) (size : Int) (w : World)
    (h : size ≤ (shmSize : Int)) (hbad : size < 0 ∨ (w.mem.length : Int) < size) :
    readFromShm addr size none w =
      ({ mem := w.mem, trace := w.trace ++ [Event.lockOk, Event.unlock] },
        Outcome.panicked) := by
  have h' : ¬ size > (shmSize : Int) := by omega
  have h2 : ¬ (0 ≤ size ∧ size ≤ (w.mem.length : Int)) := by omega
  simp [readFromShm, h', lockFile, unlockFile, reslice, World.emit, h2]

end ShmShare

/-! ## The transfer functions: claims -/

namespace ShmShare

theorem mapShm_mem_length (file : List Byte) : (mapShm file).1.mem.length = shmSize := by
  simp [mapShm]

theorem mainWrites_data_length (e : Endian) : (writeAll e mainWrites).Data.length = 62 := by
  cases e <;> rfl

/-- C1 (channel fidelity): when `len(data) <= shmSize`, `addr` has length `shmSize`
within its capacity and both lock acquisitions succeed, `writeToShm(addr, data, lock)`
returns `nil` and the `readFromShm(addr, len(data), lock)` that follows returns a
slice and a `nil` error, and the bytes of that slice are `data`. -/
theorem channel_fidelity (addr : ShmSlice) (data : List Byte) (w : World)
    (hdata : data.length ≤ shmSize) (haddr : addr.len = shmSize)
    (hcap : addr.len ≤ w.mem.length) :
    (writeToShm addr data none w).2 = none ∧
    ∃ s, (readFromShm addr (data.length : Int) none (writeToShm addr data none w).1).2
          = Outcome.ret (some s, none) ∧
        s.bytes (readFromShm addr (data.length : Int) none (writeToShm addr data none w).1).1
          = data := by
  have hmin : min addr.len data.length = data.length := by omega
  rw [writeToShm_locked addr data w hdata, hmin]
  refine ⟨rfl, ⟨data.length⟩, ?_, ?_⟩
  · rw [readFromShm_locked _ _ _ (by exact_mod_cast hdata) (by omega) (by simp)]
    simp
  · rw [readFromShm_locked _ _ _ (by exact_mod_cast hdata) (by omega) (by simp)]
    simp [ShmSlice.bytes]

theorem channel_fidelity_witness :
    (writeToShm ⟨4096⟩ [1, 2, 3] none ⟨List.replicate 4096 0, []⟩).2 = none ∧
    ∃ s, (readFromShm ⟨4096⟩ (([1, 2, 3] : List Byte).length : Int) none
            (writeToShm ⟨4096⟩ [1, 2, 3] none ⟨List.replicate 4096 0, []⟩).1).2
          = Outcome.ret (some s, none) ∧
        s.bytes (readFromShm ⟨4096⟩ (([1, 2, 3] : List Byte).length : Int) none
            (writeToShm ⟨4096⟩ [1, 2, 3] none ⟨List.replicate 4096 0, []⟩).1).1
          = [1, 2, 3] :=
  channel_fidelity ⟨4096⟩ [1, 2, 3] ⟨List.replicate 4096 0, []⟩ (by decide) rfl
    (List.length_replicate 4096 (0 : Byte)).ge

/-- C2 (capacity check on write): when `len(data) > shmSize`, `writeToShm` returns
the size error whatever the lock would answer, performs no lock or memory event
and leaves the mapping as it was; when `len(data) <= shmSize` and the lock
acquisition succeeds it returns `nil`. -/
theorem write_capacity_check (addr : ShmSlice) (data : List Byte) (w : World) :
    (data.length > shmSize → ∀ r : Option GoError,
        (writeToShm addr data r w).2 = some GoError.dataTooLarge ∧
        (writeToShm addr data r w).1.mem = w.mem ∧
        newEvents w (writeToShm addr data r w).1 = []) ∧
    (data.length ≤ shmSize → (writeToShm addr data none w).2 = none) := by
  constructor
  · intro h r
    rw [writeToShm_tooLarge addr data w r h]
    exact ⟨rfl, rfl, newEvents_self w⟩
  · intro h
    rw [writeToShm_locked addr data w h]

theorem write_capacity_check_witness :
    (∀ r : Option GoError,
        (writeToShm ⟨4096⟩ (List.replicate 5000 7) r ⟨List.replicate 4096 0, []⟩).2
          = some GoError.dataTooLarge ∧
        (writeToShm ⟨4096⟩ (List.replicate 5000 7) r ⟨List.replicate 4096 0, []⟩).1.mem
          = List.replicate 4096 0 ∧
        newEvents ⟨List.replicate 4096 0, []⟩
          (writeToShm ⟨4096⟩ (List.replicate 5000 7) r ⟨List.replicate 4096 0, []⟩).1 = []) ∧
    (writeToShm ⟨4096⟩ [1, 2, 3] none ⟨List.replicate 4096 0, []⟩).2 = none :=
  ⟨(write_capacity_check ⟨4096⟩ (List.replicate 5000 7) ⟨List.replicate 4096 0, []⟩).1
      (by rw [List.length_replicate]; decide),
   (write_capacity_check ⟨4096⟩ [1, 2, 3] ⟨List.replicate 4096 0, []⟩).2 (by decide)⟩

/-- C3, as stated, fails: a negative size passes the check `size > shmSize`, and with
the lock acquired the slice expression `addr[:size]` panics on a region of
`shmSize` bytes, so `readFromShm` returns neither an error nor bytes. -/
theorem read_negative_size_panics :
    ¬ ((-1 : Int) > (shmSize : Int)) ∧
    (List.replicate shmSize (0 : Byte)).length = shmSize ∧
    (readFromShm ⟨shmSize⟩ (-1) none ⟨List.replicate shmSize 0, []⟩).2 = Outcome.panicked := by
  refine ⟨by decide, by simp, ?_⟩
  rw [readFromShm_panic _ _ _ (by decide) (Or.inl (by decide))]

/-- C3, amended (capacity check on read, for a size that is not negative): with
`addr` of length `shmSize` within its capacity and the lock acquired,
`readFromShm(addr, size, lock)` returns the size error if `size > shmSize`, and
otherwise returns a `nil` error and a slice of exactly `size` bytes, the first
`size` bytes of the region. -/
theorem read_capacity_check (addr : ShmSlice) (size : Int) (w : World)
    (hsize : 0 ≤ size) (haddr : addr.len = shmSize) (hcap : addr.len ≤ w.mem.length) :
    (size > (shmSize : Int) →
        (readFromShm addr size none w).2 = Outcome.ret (none, some GoError.sizeTooLarge)) ∧
    (size ≤ (shmSize : Int) →
        ∃ s, (readFromShm addr size none w).2 = Outcome.ret (some s, none) ∧
          ((s.bytes (readFromShm addr size none w).1).length : Int) = size ∧
          s.bytes (readFromShm addr size none w).1 = w.mem.take size.toNat) := by
  constructor
  · intro h
    rw [readFromShm_tooLarge addr size w none h]
  · intro h
    have hc : size ≤ (w.mem.length : Int) := by omega
    rw [readFromShm_locked addr size w h hsize hc]
    refine ⟨⟨size.toNat⟩, rfl, ?_, rfl⟩
    simp only [ShmSlice.bytes, List.length_take]
    omega

theorem read_capacity_check_witness :
    (readFromShm ⟨4096⟩ 5000 none ⟨List.replicate 4096 0, []⟩).2
        = Outcome.ret (none, some GoError.sizeTooLarge) ∧
    ∃ s, (readFromShm ⟨4096⟩ 10 none ⟨List.replicate 4096 0, []⟩).2
          = Outcome.ret (some s, none) ∧
        ((s.bytes (readFromShm ⟨4096⟩ 10 none ⟨List.replicate 4096 0, []⟩).1).length : Int)
          = 10 ∧
        s.bytes (readFromShm ⟨4096⟩ 10 none ⟨List.replicate 4096 0, []⟩).1
          = (List.replicate 4096 (0 : Byte)).take (10 : Int).toNat :=
  ⟨(read_capacity_check ⟨4096⟩ 5000 ⟨List.replicate 4096 0, []⟩ (by decide) rfl
      (List.length_replicate 4096 (0 : Byte)).ge).1 (by decide),
   (read_capacity_check ⟨4096⟩ 10 ⟨List.replicate 4096 0, []⟩ (by decide) rfl
      (List.length_replicate 4096 (0 : Byte)).ge).2 (by decide)⟩

/-- C4 (atomic failure on lock error): in a run of `writeToShm` in which `lockFile`
returned the error `e`, the function returns `e`, the mapping is unchanged and
the failed acquisition is the only event (no copy, no release); in a run of
`readFromShm` in which `lockFile` returned `e`, the function returns `(nil, e)`,
the mapping is unchanged and the failed acquisition is the only event. -/
theorem lock_error_atomic (addr : ShmSlice) (data : List Byte) (size : Int)
    (r : Option GoError) (w : World) (e : GoError) :
    (Event.lockErr e ∈ newEvents w (writeToShm addr data r w).1 →
        (writeToShm addr data r w).2 = some e ∧
        (writeToShm addr data r w).1.mem = w.mem ∧
        newEvents w (writeToShm addr data r w).1 = [Event.lockErr e]) ∧
    (Event.lockErr e ∈ newEvents w (readFromShm addr size r w).1 →
        (readFromShm addr size r w).2 = Outcome.ret (none, some e) ∧
        (readFromShm addr size r w).1.mem = w.mem ∧
        newEvents w (readFromShm addr size r w).1 = [Event.lockErr e]) := by
  constructor
  · by_cases h : data.length > shmSize
    · rw [writeToShm_tooLarge addr data w r h, newEvents_self]
      intro hm
      simp at hm
    · have h' : data.length ≤ shmSize := by omega
      cases r with
      | none =>
        rw [writeToShm_locked addr data w h', newEvents_append]
        intro hm
        simp at hm
      | some e' =>
        rw [writeToShm_lockErr addr data w e' h', newEvents_append]
        intro hm
        simp at hm
        subst hm
        exact ⟨rfl, rfl, rfl⟩
  · by_cases h : size > (shmSize : Int)
    · rw [readFromShm_tooLarge addr size w r h, newEvents_self]
      intro hm
      simp at hm
    · have h' : size ≤ (shmSize : Int) := by omega
      cases r with
      | none =>
        by_cases hb : size < 0 ∨ (w.mem.length : Int) < size
        · rw [readFromShm_panic addr size w h' hb, newEvents_append]
          intro hm
          simp at hm
        · rw [readFromShm_locked addr size w h' (by omega) (by omega), newEvents_append]
          intro hm
          simp at hm
      | some e' =>
        rw [readFromShm_lockErr addr size w e' h', newEvents_append]
        intro hm
        simp at hm
        subst hm
        exact ⟨rfl, rfl, rfl⟩

theorem lock_error_atomic_witness :
    ((writeToShm ⟨2⟩ [1] (some (GoError.errno 4)) ⟨[0, 0], []⟩).2 = some (GoError.errno 4) ∧
      (writeToShm ⟨2⟩ [1] (some (GoError.errno 4)) ⟨[0, 0], []⟩).1.mem = [0, 0] ∧
      newEvents ⟨[0, 0], []⟩ (writeToShm ⟨2⟩ [1] (some (GoError.errno 4)) ⟨[0, 0], []⟩).1
        = [Event.lockErr (GoError.errno 4)]) ∧
    ((readFromShm ⟨2⟩ 1 (some (GoError.errno 4)) ⟨[0, 0], []⟩).2
        = Outcome.ret (none, some (GoError.errno 4)) ∧
      (readFromShm ⟨2⟩ 1 (some (GoError.errno 4)) ⟨[0, 0], []⟩).1.mem = [0, 0] ∧
      newEvents ⟨[0, 0], []⟩ (readFromShm ⟨2⟩ 1 (some (GoError.errno 4)) ⟨[0, 0], []⟩).1
        = [Event.lockErr (GoError.errno 4)]) :=
  ⟨(lock_error_atomic ⟨2⟩ [1] 1 (some (GoError.errno 4)) ⟨[0, 0], []⟩ (GoError.errno 4)).1
      (by decide),
   (lock_error_atomic ⟨2⟩ [1] 1 (some (GoError.errno 4)) ⟨[0, 0], []⟩ (GoError.errno 4)).2
      (by decide)⟩

/-- C5 (lock release on every exit path): among the events of one call of
`writeToShm` or of `readFromShm` there is at most one acquisition and exactly as
many releases as acquisitions (none after a size error or a lock error), and
when the lock was acquired the acquisition is the first event and the release
the last one before the function returns, also when `readFromShm` panics. -/
theorem lock_released_once (addr : ShmSlice) (data : List Byte) (size : Int)
    (r : Option GoError) (w : World) :
    (acquisitions (newEvents w (writeToShm addr data r w).1) ≤ 1 ∧
      releases (newEvents w (writeToShm addr data r w).1)
        = acquisitions (newEvents w (writeToShm addr data r w).1) ∧
      (acquisitions (newEvents w (writeToShm addr data r w).1) = 1 →
        (newEvents w (writeToShm addr data r w).1).head? = some Event.lockOk ∧
        (newEvents w (writeToShm addr data r w).1).getLast? = some Event.unlock)) ∧
    (acquisitions (newEvents w (readFromShm addr size r w).1) ≤ 1 ∧
      releases (newEvents w (readFromShm addr size r w).1)
        = acquisitions (newEvents w (readFromShm addr size r w).1) ∧
      (acquisitions (newEvents w (readFromShm addr size r w).1) = 1 →
        (newEvents w (readFromShm addr size r w).1).head? = some Event.lockOk ∧
        (newEvents w (readFromShm addr size r w).1).getLast? = some Event.unlock)) := by
  constructor
  · by_cases h : data.length > shmSize
    · rw [writeToShm_tooLarge addr data w r h, newEvents_self]
      simp [acquisitions, releases]
    · have h' : data.length ≤ shmSize := by omega
      cases r with
      | none =>
        rw [writeToShm_locked addr data w h', newEvents_append]
        simp [acquisitions, releases]
      | some e' =>
        rw [writeToShm_lockErr addr data w e' h', newEvents_append]
        simp [acquisitions, releases]
  · by_cases h : size > (shmSize : Int)
    · rw [readFromShm_tooLarge addr size w r h, newEvents_self]
      simp [acquisitions, releases]
    · have h' : size ≤ (shmSize : Int) := by omega
      cases r with
      | none =>
        by_cases hb : size < 0 ∨ (w.mem.length : Int) < size
        · rw [readFromShm_panic addr size w h' hb, newEvents_append]
          simp [acquisitions, releases]
        · rw [readFromShm_locked addr size w h' (by omega) (by omega), newEvents_append]
          simp [acquisitions, releases]
      | some e' =>
        rw [readFromShm_lockErr addr size w e' h', newEvents_append]
        simp [acquisitions, releases]

/-- C10 (frame of a write, and the full-region read of `main`): with
`len(data) <= shmSize` and a region of `shmSize` bytes, a successful `writeToShm`
leaves the region equal to `data` followed by the old bytes from position
`len(data)` on, so every position below `len(data)` holds the byte of `data` and
every other position its old byte; the `readFromShm(addr, shmSize, lock)` that
follows returns that whole content, `shmSize` bytes long. -/
theorem write_frame_and_full_read (addr : ShmSlice) (data : List Byte) (w : World)
    (hdata : data.length ≤ shmSize) (haddr : addr.len = shmSize)
    (hmem : w.mem.length = shmSize) :
    (writeToShm addr data none w).2 = none ∧
    (writeToShm addr data none w).1.mem = data ++ w.mem.drop data.length ∧
    (∀ i, i < data.length → (writeToShm addr data none w).1.mem[i]? = data[i]?) ∧
    (∀ i, data.length ≤ i → (writeToShm addr data none w).1.mem[i]? = w.mem[i]?) ∧
    ∃ s, (readFromShm addr (shmSize : Int) none (writeToShm addr data none w).1).2
          = Outcome.ret (some s, none) ∧
        s.bytes (readFromShm addr (shmSize : Int) none (writeToShm addr data none w).1).1
          = data ++ w.mem.drop data.length ∧
        (s.bytes (readFromShm addr (shmSize : Int) none
          (writeToShm addr data none w).1).1).length = shmSize := by
  have hmin : min addr.len data.length = data.length := by omega
  have hlen : (data ++ w.mem.drop data.length).length = shmSize := by
    simp only [List.length_append, List.length_drop]
    omega
  rw [writeToShm_locked addr data w hdata, hmin, List.take_length]
  refine ⟨rfl, rfl, ?_, ?_, ⟨shmSize⟩, ?_, ?_, ?_⟩
  · intro i hi
    exact List.getElem?_append_left hi
  · intro i hi
    rw [List.getElem?_append_right hi, List.getElem?_drop]
    congr 1
    omega
  · rw [readFromShm_locked _ _ _ (le_refl _) (by omega) (by simp only [hlen]; exact le_refl _)]
    simp
  · rw [readFromShm_locked _ _ _ (le_refl _) (by omega) (by simp only [hlen]; exact le_refl _)]
    simp only [ShmSlice.bytes]
    rw [← hlen, List.take_length]
  · rw [readFromShm_locked _ _ _ (le_refl _) (by omega) (by simp only [hlen]; exact le_refl _)]
    simp only [ShmSlice.bytes]
    rw [← hlen, List.take_length]

theorem write_frame_and_full_read_witness :
    (writeToShm ⟨shmSize⟩ [1, 2, 3] none ⟨List.replicate shmSize 9, []⟩).2 = none ∧
    (writeToShm ⟨shmSize⟩ [1, 2, 3] none ⟨List.replicate shmSize 9, []⟩).1.mem
      = [1, 2, 3] ++ (List.replicate shmSize 9).drop ([1, 2, 3] : List Byte).length ∧
    (∀ i, i < ([1, 2, 3] : List Byte).length →
      (writeToShm ⟨shmSize⟩ [1, 2, 3] none ⟨List.replicate shmSize 9, []⟩).1.mem[i]?
        = ([1, 2, 3] : List Byte)[i]?) ∧
    (∀ i, ([1, 2, 3] : List Byte).length ≤ i →
      (writeToShm ⟨shmSize⟩ [1, 2, 3] none ⟨List.replicate shmSize 9, []⟩).1.mem[i]?
        = (List.replicate shmSize (9 : Byte))[i]?) ∧
    ∃ s, (readFromShm ⟨shmSize⟩ (shmSize : Int) none
            (writeToShm ⟨shmSize⟩ [1, 2, 3] none ⟨List.replicate shmSize 9, []⟩).1).2
          = Outcome.ret (some s, none) ∧
        s.bytes (readFromShm ⟨shmSize⟩ (shmSize : Int) none
            (writeToShm ⟨shmSize⟩ [1, 2, 3] none ⟨List.replicate shmSize 9, []⟩).1).1
          = [1, 2, 3] ++ (List.replicate shmSize 9).drop ([1, 2, 3] : List Byte).length ∧
        (s.bytes (readFromShm ⟨shmSize⟩ (shmSize : Int) none
            (writeToShm ⟨shmSize⟩ [1, 2, 3] none
              ⟨List.replicate shmSize 9, []⟩).1).1).length = shmSize :=
  write_frame_and_full_read ⟨shmSize⟩ [1, 2, 3] ⟨List.replicate shmSize 9, []⟩ (by decide) rfl
    (List.length_replicate shmSize (9 : Byte))

/-- The events of `mainTransfer` when both lock acquisitions succeed. -/
theorem mainTransfer_trace (data file : List Byte) (h : data.length ≤ shmSize) :
    mainTransfer data file none none =
      ({ mem := data ++ (mapShm file).1.mem.drop data.length,
         trace := [Event.lockOk, Event.shmWrite data.length, Event.unlock, Event.lockOk,
           Event.unlock, Event.shmRead shmSize] }, some ⟨shmSize⟩) := by
  have hmin : min (mapShm file).2.len data.length = data.length := by
    simp only [mapShm]
    omega
  have hlen : (data ++ (mapShm file).1.mem.drop data.length).length = shmSize := by
    simp only [List.length_append, List.length_drop, mapShm_mem_length]
    omega
  unfold mainTransfer
  rw [writeToShm_locked _ data _ h, hmin, List.take_length]
  simp only []
  rw [readFromShm_locked _ _ _ (le_refl _) (by omega) (by simp only [hlen]; exact le_refl _)]
  simp [World.emit, mapShm]

/-- C6 fails on the code: in the run of `main` with both lock acquisitions
successful, `readFromShm` touches no byte of the mapping while it holds the lock
and hands back a slice of the mapping itself, and the `fmt.Println` of
`kvs2.Data` then reads all `shmSize` bytes of the mapping after the release: the
log of the run is not disciplined. -/
theorem main_reads_mapping_unlocked (e : Endian) (file : List Byte) :
    (main e file none none).1.trace =
      [Event.lockOk, Event.shmWrite 62, Event.unlock, Event.lockOk, Event.unlock,
        Event.shmRead shmSize] ∧
    disciplined false (main e file none none).1.trace = false ∧
    heldAfter false [Event.lockOk, Event.shmWrite 62, Event.unlock, Event.lockOk,
      Event.unlock] = false := by
  have hl : (writeAll e mainWrites).Data.length ≤ shmSize := by
    rw [mainWrites_data_length]; decide
  have ht : (main e file none none).1.trace =
      [Event.lockOk, Event.shmWrite 62, Event.unlock, Event.lockOk, Event.unlock,
        Event.shmRead shmSize] := by
    unfold main
    rw [mainTransfer_trace _ file hl, mainWrites_data_length]
    simp only []
    split <;> rfl
  refine ⟨ht, ?_, rfl⟩
  rw [ht]
  rfl

end ShmShare

/-! ## The record store: lemmas -/

namespace ShmShare

theorem putU32_length (e : Endian) (n : Nat) : (putU32 e n).length = 4 := by
  cases e <;> rfl

theorem getU32_putU32 (e : Endian) (n : Nat) (rest : List Byte) (h : n < 4294967296) :
    getU32 e (putU32 e n ++ rest) = some n := by
  cases e <;> simp [putU32, getU32, byteOf] <;> omega

theorem encodeRecord_length (e : Endian) (k v : List Byte) :
    (encodeRecord e k v).length = 8 + k.length + v.length := by
  simp only [encodeRecord, List.length_append, putU32_length]
  omega

/-- Decoding at the offset where a record was encoded gives the record back and
the offset just after it, whatever bytes come before and after. -/
theorem decodeRecord_encodeRecord (e : Endian) (pre k v post : List Byte)
    (hk : k.length < 4294967296) (hv : v.length < 4294967296) :
    decodeRecord e (pre ++ encodeRecord e k v ++ post) pre.length
      = Except.ok (k, v, pre.length + 8 + k.length + v.length) := by
  have e0 : (pre ++ encodeRecord e k v ++ post).drop pre.length
      = putU32 e k.length ++ (k ++ putU32 e v.length ++ v ++ post) := by
    have : pre ++ encodeRecord e k v ++ post
        = pre ++ (putU32 e k.length ++ (k ++ putU32 e v.length ++ v ++ post)) := by
      simp [encodeRecord, List.append_assoc]
    rw [this, List.drop_left]
  have e1 : (pre ++ encodeRecord e k v ++ post).drop (pre.length + 4)
      = k ++ (putU32 e v.length ++ v ++ post) := by
    have : pre ++ encodeRecord e k v ++ post
        = (pre ++ putU32 e k.length) ++ (k ++ (putU32 e v.length ++ v ++ post)) := by
      simp [encodeRecord, List.append_assoc]
    rw [this, List.drop_left' (by simp [putU32_length])]
  have e2 : (pre ++ encodeRecord e k v ++ post).drop (pre.length + 4 + k.length)
      = putU32 e v.length ++ (v ++ post) := by
    have : pre ++ encodeRecord e k v ++ post
        = (pre ++ putU32 e k.length ++ k) ++ (putU32 e v.length ++ (v ++ post)) := by
      simp [encodeRecord, List.append_assoc]
    rw [this, List.drop_left' (by simp [putU32_length]; omega)]
  have e3 : (pre ++ encodeRecord e k v ++ post).drop (pre.length + 4 + k.length + 4)
      = v ++ post := by
    have : pre ++ encodeRecord e k v ++ post
        = (pre ++ putU32 e k.length ++ k ++ putU32 e v.length) ++ (v ++ post) := by
      simp [encodeRecord, List.append_assoc]
    rw [this, List.drop_left' (by simp [putU32_length]; omega)]
  have hk' : ¬ k.length > (k ++ (putU32 e v.length ++ v ++ post)).length := by
    simp only [List.length_append]
    omega
  have hv' : ¬ v.length > (v ++ post).length := by
    simp only [List.length_append]
    omega
  unfold decodeRecord
  rw [e0, getU32_putU32 e _ _ hk]
  simp only []
  rw [e1, if_neg hk', e2, getU32_putU32 e _ _ hv]
  simp only []
  rw [e3, if_neg hv', List.take_left, List.take_left]

theorem KvIndex.get_set_self (key : List Byte) (off : Nat) (idx : KvIndex) :
    KvIndex.get key (KvIndex.set key off idx) = some off := by
  simp [KvIndex.get, KvIndex.set]

theorem KvIndex.get_filter_ne (key k : List Byte) (h : key ≠ k) (idx : KvIndex) :
    KvIndex.get key (idx.filter (fun p => decide (p.1 ≠ k))) = KvIndex.get key idx := by
  induction idx with
  | nil => rfl
  | cons p rest ih =>
    obtain ⟨k', off'⟩ := p
    by_cases hk : k' = k
    · have hne : ¬ k' = key := fun h' => h (h'.symm.trans hk)
      simp [List.filter, hk, KvIndex.get]
      subst hk
      simp only [hne, if_false]
      simpa using ih
    · simp only [List.filter, hk, ne_eq, not_false_eq_true, decide_True, KvIndex.get]
      rw [ih]

theorem KvIndex.get_set_ne (key k : List Byte) (off : Nat) (idx : KvIndex) (h : key ≠ k) :
    KvIndex.get key (KvIndex.set k off idx) = KvIndex.get key idx := by
  have hne : ¬ k = key := fun h' => h h'.symm
  simp only [KvIndex.set, KvIndex.get, hne, if_false]
  exact KvIndex.get_filter_ne key k h idx

theorem writesFrom_data (e : Endian) (ws : List (List Byte × List Byte)) :
    ∀ kvs : KeyValueStore, (writesFrom e kvs ws).Data = kvs.Data ++ encodeAll e ws := by
  induction ws with
  | nil => intro kvs; simp [writesFrom, encodeAll]
  | cons p rest ih =>
    intro kvs
    obtain ⟨k, v⟩ := p
    have := ih (kvs.Write e k v)
    simp only [writesFrom, List.foldl_cons] at this ⊢
    rw [this]
    simp [KeyValueStore.Write, encodeAll, List.append_assoc]

theorem encodeAll_length_ge (e : Endian) (ws : List (List Byte × List Byte)) :
    ws.length ≤ (encodeAll e ws).length := by
  induction ws with
  | nil => simp [encodeAll]
  | cons p rest ih =>
    obtain ⟨k, v⟩ := p
    simp only [encodeAll, List.length_cons, List.length_append, encodeRecord_length]
    omega

/-- A store that has just written a key answers it with the written value. -/
theorem answers_write_self (e : Endian) (kvs : KeyValueStore) (k v : List Byte)
    (hk : k.length < 4294967296) (hv : v.length < 4294967296) :
    answers e (kvs.Write e k v) k v := by
  intro post idx hidx
  have hget : KvIndex.get k idx = some kvs.Data.length := by
    rw [hidx]
    exact KvIndex.get_set_self k _ _
  simp only [KeyValueStore.Read, hget, KeyValueStore.Write]
  rw [decodeRecord_encodeRecord e kvs.Data k v post hk hv]

/-- A write of another key does not change what a store answers for a key. -/
theorem answers_write_other (e : Endian) (kvs : KeyValueStore) (key value k v : List Byte)
    (hne : key ≠ k) (h : answers e kvs key value) : answers e (kvs.Write e k v) key value := by
  intro post idx hidx
  have hget : KvIndex.get key idx = KvIndex.get key kvs.Index := by
    rw [hidx]
    exact KvIndex.get_set_ne key k _ _ hne
  have := h (encodeRecord e k v ++ post) idx hget
  simpa [KeyValueStore.Write, List.append_assoc] using this

/-- After a sequence of writes a store answers a key with the value of its most
recent write, or as before when the key was not written. -/
theorem answers_writesFrom (e : Endian) (key value : List Byte)
    (ws : List (List Byte × List Byte)) (hws : ∀ p ∈ ws, fitsU32 p) :
    ∀ kvs : KeyValueStore,
      (lastWritten key ws = some value ∨
        (lastWritten key ws = none ∧ answers e kvs key value)) →
      answers e (writesFrom e kvs ws) key value := by
  induction ws with
  | nil =>
    intro kvs h
    rcases h with h | ⟨_, h⟩
    · simp [lastWritten] at h
    · exact h
  | cons p rest ih =>
    intro kvs h
    obtain ⟨k, v⟩ := p
    have hrest : ∀ p ∈ rest, fitsU32 p := fun p hp => hws p (List.mem_cons_of_mem _ hp)
    have hkv : fitsU32 (k, v) := hws (k, v) (List.mem_cons_self _ _)
    show answers e (writesFrom e (kvs.Write e k v) rest) key value
    cases hl : lastWritten key rest with
    | some v' =>
      have hv' : v' = value := by
        rcases h with h | ⟨h, _⟩ <;> simp [lastWritten, hl] at h
        exact h
      exact ih hrest _ (Or.inl (by rw [hl, hv']))
    | none =>
      by_cases hk : k = key
      · have hv' : v = value := by
          rcases h with h | ⟨h, _⟩ <;> simp [lastWritten, hl, hk] at h
          exact h
        subst hk
        subst hv'
        exact ih hrest _ (Or.inr ⟨hl, answers_write_self e kvs k v hkv.1 hkv.2⟩)
      · rcases h with h | ⟨_, h⟩
        · simp [lastWritten, hl, hk] at h
        · exact ih hrest _ (Or.inr ⟨hl,
            answers_write_other e kvs key value k v (fun h' => hk h'.symm) h⟩)

theorem lastWritten_of_mem (key : List Byte) (ws : List (List Byte × List Byte))
    (h : key ∈ ws.map Prod.fst) : ∃ v, lastWritten key ws = some v := by
  induction ws with
  | nil => simp at h
  | cons p rest ih =>
    obtain ⟨k, v⟩ := p
    cases hl : lastWritten key rest with
    | some v' => exact ⟨v', by simp [lastWritten, hl]⟩
    | none =>
      by_cases hk : k = key
      · exact ⟨v, by simp [lastWritten, hl, hk]⟩
      · exfalso
        simp only [List.map_cons, List.mem_cons] at h
        rcases h with h | h
        · exact hk h.symm
        · obtain ⟨v', hv'⟩ := ih h
          rw [hl] at hv'
          cases hv'

/-- The scan walks over the records of a sequence of writes exactly as the
writes did: from the buffer length and index of the store before them it reaches
the buffer length and index of the store after them. -/
theorem rebuildLoop_records (e : Endian) (ws : List (List Byte × List Byte))
    (hws : ∀ p ∈ ws, fitsU32 p) (post : List Byte) (fuel : Nat) :
    ∀ kvs : KeyValueStore,
      KeyValueStore.rebuildLoop e ((writesFrom e kvs ws).Data ++ post) (ws.length + fuel)
          kvs.Data.length kvs.Index
        = KeyValueStore.rebuildLoop e ((writesFrom e kvs ws).Data ++ post) fuel
          (writesFrom e kvs ws).Data.length (writesFrom e kvs ws).Index := by
  induction ws with
  | nil => intro kvs; simp [writesFrom]
  | cons p rest ih =>
    intro kvs
    obtain ⟨k, v⟩ := p
    have hrest : ∀ p ∈ rest, fitsU32 p := fun p hp => hws p (List.mem_cons_of_mem _ hp)
    have hkv : fitsU32 (k, v) := hws (k, v) (List.mem_cons_self _ _)
    have hstep : writesFrom e kvs ((k, v) :: rest) = writesFrom e (kvs.Write e k v) rest := rfl
    have hdata : (writesFrom e (kvs.Write e k v) rest).Data ++ post
        = kvs.Data ++ encodeRecord e k v ++ (encodeAll e rest ++ post) := by
      rw [writesFrom_data]
      simp [KeyValueStore.Write, List.append_assoc]
    have hlt : ¬ ((writesFrom e (kvs.Write e k v) rest).Data ++ post).length
        ≤ kvs.Data.length := by
      rw [hdata]
      simp only [List.length_append, encodeRecord_length]
      omega
    have hfuel : ((k, v) :: rest).length + fuel = (rest.length + fuel) + 1 := by
      simp only [List.length_cons]
      omega
    rw [hstep, hfuel]
    conv_lhs => unfold KeyValueStore.rebuildLoop
    rw [if_neg hlt]
    have hdec : decodeRecord e ((writesFrom e (kvs.Write e k v) rest).Data ++ post)
        kvs.Data.length
        = Except.ok (k, v, kvs.Data.length + 8 + k.length + v.length) := by
      rw [hdata]
      exact decodeRecord_encodeRecord e kvs.Data k v _ hkv.1 hkv.2
    rw [hdec]
    simp only []
    have := ih hrest (kvs.Write e k v)
    have hlen : (kvs.Write e k v).Data.length = kvs.Data.length + 8 + k.length + v.length := by
      simp only [KeyValueStore.Write, List.length_append, encodeRecord_length]
      omega
    rw [hlen] at this
    exact this

theorem answers_read (e : Endian) (kvs : KeyValueStore) (key value : List Byte)
    (h : answers e kvs key value) : kvs.Read e key = Except.ok value := by
  have := h [] kvs.Index rfl
  simpa using this

/-- The scan stops cleanly once it stands at the end of the buffer. -/
theorem rebuildLoop_at_end (e : Endian) (data : List Byte) (fuel : Nat) (idx : KvIndex) :
    KeyValueStore.rebuildLoop e data (fuel + 1) data.length idx = some (idx, none) := by
  simp [KeyValueStore.rebuildLoop]

/-- Rebuilding over the buffer of a sequence of writes succeeds and gives the very
store the writes built, whatever index the rebuilt store held before. -/
theorem rebuildIndex_writeAll (e : Endian) (ws : List (List Byte × List Byte))
    (hws : ∀ p ∈ ws, fitsU32 p) (idx0 : KvIndex) :
    KeyValueStore.RebuildIndex e { Data := (writeAll e ws).Data, Index := idx0 }
      = some (writeAll e ws, none) := by
  have hlen : ws.length ≤ (writeAll e ws).Data.length := by
    rw [writeAll, writesFrom_data]
    simpa using encodeAll_length_ge e ws
  have hfuel : (writeAll e ws).Data.length + 1
      = ws.length + (((writeAll e ws).Data.length - ws.length) + 1) := by omega
  have h := rebuildLoop_records e ws hws [] (((writeAll e ws).Data.length - ws.length) + 1) {}
  simp only [List.append_nil] at h
  change KeyValueStore.rebuildLoop e (writeAll e ws).Data _ 0 [] = _ at h
  rw [rebuildLoop_at_end] at h
  simp only [KeyValueStore.RebuildIndex]
  rw [hfuel, h]
  rfl

/-- Over a tail of `8 * k + 2` zero bytes the scan indexes the empty key `k` times
and then fails on the 2 bytes left; no other key changes in the index. -/
theorem rebuildLoop_zero_tail (e : Endian) (k : Nat) :
    ∀ (pre : List Byte) (idx : KvIndex) (fuel : Nat),
      ∃ idx', KeyValueStore.rebuildLoop e (pre ++ List.replicate (8 * k + 2) 0)
            (k + 1 + fuel) pre.length idx = some (idx', some KvError.MalformedRecord) ∧
        ∀ key : List Byte, key ≠ [] → KvIndex.get key idx' = KvIndex.get key idx := by
  induction k with
  | zero =>
    intro pre idx fuel
    refine ⟨idx, ?_, fun _ _ => rfl⟩
    have hf : 0 + 1 + fuel = fuel + 1 := by omega
    have hlt : ¬ (pre ++ List.replicate (8 * 0 + 2) (0 : Byte)).length ≤ pre.length := by
      simp
    have hdec : decodeRecord e (pre ++ List.replicate (8 * 0 + 2) (0 : Byte)) pre.length
        = Except.error KvError.MalformedRecord := by
      unfold decodeRecord
      rw [List.drop_left]
      rfl
    rw [hf]
    unfold KeyValueStore.rebuildLoop
    rw [if_neg hlt, hdec]
  | succ k ih =>
    intro pre idx fuel
    have henc : encodeRecord e [] [] = List.replicate 8 0 := by cases e <;> rfl
    have hsplit : pre ++ List.replicate (8 * (k + 1) + 2) (0 : Byte)
        = pre ++ encodeRecord e [] [] ++ List.replicate (8 * k + 2) 0 := by
      have h8 : 8 * (k + 1) + 2 = 8 + (8 * k + 2) := by omega
      rw [h8, List.replicate_add, henc, List.append_assoc]
    have hlt : ¬ (pre ++ List.replicate (8 * (k + 1) + 2) (0 : Byte)).length ≤ pre.length := by
      simp
    have hdec : decodeRecord e (pre ++ List.replicate (8 * (k + 1) + 2) (0 : Byte)) pre.length
        = Except.ok ([], [], pre.length + 8 + 0 + 0) := by
      rw [hsplit]
      exact decodeRecord_encodeRecord e pre [] [] _ (by decide) (by decide)
    have hf : k + 1 + 1 + fuel = (k + 1 + fuel) + 1 := by omega
    obtain ⟨idx', h1, h2⟩ := ih (pre ++ encodeRecord e [] []) (KvIndex.set [] pre.length idx) fuel
    refine ⟨idx', ?_, ?_⟩
    · rw [hf]
      unfold KeyValueStore.rebuildLoop
      rw [if_neg hlt, hdec]
      simp only []
      rw [hsplit]
      have hl : (pre ++ encodeRecord e [] []).length = pre.length + 8 + 0 + 0 := by
        simp [encodeRecord_length]
      rw [hl] at h1
      exact h1
    · intro key hkey
      rw [h2 key hkey]
      exact KvIndex.get_set_ne key [] _ _ hkey

theorem mainWrites_fit : ∀ p ∈ mainWrites, fitsU32 p := by
  intro p hp
  simp only [mainWrites, List.mem_cons, List.mem_singleton, List.not_mem_nil, or_false] at hp
  rcases hp with rfl | rfl | rfl | rfl <;> exact ⟨by decide, by decide⟩

/-- The store `kvs2` of `main`, when both lock acquisitions succeed: the result of
rebuilding over the written bytes followed by the old bytes of the region. -/
theorem main_store (e : Endian) (file : List Byte) :
    (main e file none none).2
      = (KeyValueStore.RebuildIndex e
          { Data := (writeAll e mainWrites).Data ++ (mapShm file).1.mem.drop 62 }).map
          Prod.fst := by
  have hl : (writeAll e mainWrites).Data.length ≤ shmSize := by
    rw [mainWrites_data_length]; decide
  have hlen : ((writeAll e mainWrites).Data ++ (mapShm file).1.mem.drop 62).length
      = shmSize := by
    simp only [List.length_append, List.length_drop, mapShm_mem_length,
      mainWrites_data_length]
    rfl
  unfold main
  rw [mainTransfer_trace _ file hl, mainWrites_data_length]
  simp only [ShmSlice.bytes]
  rw [← hlen, List.take_length]
  cases KeyValueStore.RebuildIndex e
      { Data := (writeAll e mainWrites).Data ++ (mapShm file).1.mem.drop 62 } with
  | none => rfl
  | some r => rfl

end ShmShare

/-! ## The record store: claims -/

namespace ShmShare

/-- C9 (read after write): for every store state and every key and value whose
lengths fit the 32-bit length field, the empty key and the empty value included,
`Read(key)` right after `Write(key, value)` returns `value` without error. -/
theorem read_after_write (e : Endian) (kvs : KeyValueStore) (key value : List Byte)
    (hk : key.length < 4294967296) (hv : value.length < 4294967296) :
    (kvs.Write e key value).Read e key = Except.ok value :=
  answers_read e _ key value (answers_write_self e kvs key value hk hv)

theorem read_after_write_witness :
    (({ Data := [1, 2, 3], Index := [([], 7)] } : KeyValueStore).Write Endian.big [] []).Read
      Endian.big [] = Except.ok [] :=
  read_after_write Endian.big { Data := [1, 2, 3], Index := [([], 7)] } [] [] (by decide)
    (by decide)

/-- C8 (cross-instance equivalence of rebuild): for every sequence of writes on
the empty store `A` whose keys and values fit the 32-bit length field, the store
`B` made from `A`'s buffer bytes is rebuilt without error, `B` and `A` answer
`Read(k)` for every written key `k` with the value of the most recent write of
`k`, and a second rebuild of `B` gives `B` again, index unchanged. -/
theorem rebuild_cross_instance (e : Endian) (ws : List (List Byte × List Byte))
    (hws : ∀ p ∈ ws, fitsU32 p) :
    ∃ B : KeyValueStore,
      KeyValueStore.RebuildIndex e { Data := (writeAll e ws).Data } = some (B, none) ∧
      (∀ k ∈ ws.map Prod.fst, ∃ v, lastWritten k ws = some v ∧
        B.Read e k = Except.ok v ∧ (writeAll e ws).Read e k = Except.ok v) ∧
      KeyValueStore.RebuildIndex e B = some (B, none) := by
  refine ⟨writeAll e ws, rebuildIndex_writeAll e ws hws [], ?_,
    rebuildIndex_writeAll e ws hws (writeAll e ws).Index⟩
  intro k hk
  obtain ⟨v, hv⟩ := lastWritten_of_mem k ws hk
  have h := answers_read e _ k v (answers_writesFrom e k v ws hws {} (Or.inl hv))
  exact ⟨v, hv, h, h⟩

theorem rebuild_cross_instance_witness :
    ∃ B : KeyValueStore,
      KeyValueStore.RebuildIndex Endian.little
        { Data := (writeAll Endian.little [(foo, bar), ([], bar2), (foo, [])]).Data }
        = some (B, none) ∧
      (∀ k ∈ [(foo, bar), ([], bar2), (foo, [])].map Prod.fst,
        ∃ v, lastWritten k [(foo, bar), ([], bar2), (foo, [])] = some v ∧
          B.Read Endian.little k = Except.ok v ∧
          (writeAll Endian.little [(foo, bar), ([], bar2), (foo, [])]).Read Endian.little k
            = Except.ok v) ∧
      KeyValueStore.RebuildIndex Endian.little B = some (B, none) :=
  rebuild_cross_instance Endian.little [(foo, bar), ([], bar2), (foo, [])] (by
    intro p hp
    simp only [List.mem_cons, List.mem_singleton, List.not_mem_nil, or_false] at hp
    rcases hp with rfl | rfl | rfl <;> exact ⟨by decide, by decide⟩)

theorem shadowFile_length (e : Endian) : (shadowFile e).length = shmSize := by
  simp only [shadowFile, List.length_append, List.length_replicate, encodeRecord_length, foo,
    List.length_cons, List.length_nil]
  rfl

/-- The store `kvs2` of `main` when the file held `shadowFile`: the store of the
four writes of `main` followed by the record left in the file. -/
theorem main_store_shadowed (e : Endian) :
    (main e (shadowFile e) none none).2
      = some (writeAll e (mainWrites ++ [(foo, List.replicate 4023 0)])) := by
  have hmem : (mapShm (shadowFile e)).1.mem = shadowFile e := by
    simp only [mapShm]
    exact List.take_left' (shadowFile_length e)
  have hdrop : (mapShm (shadowFile e)).1.mem.drop 62
      = encodeRecord e foo (List.replicate 4023 0) := by
    rw [hmem, shadowFile]
    exact List.drop_left' (List.length_replicate _ _)
  have hws : ∀ p ∈ mainWrites ++ [(foo, List.replicate 4023 (0 : Byte))], fitsU32 p := by
    intro p hp
    rcases List.mem_append.mp hp with h | h
    · exact mainWrites_fit p h
    · rw [List.mem_singleton] at h
      subst h
      refine ⟨by decide, ?_⟩
      show (List.replicate 4023 (0 : Byte)).length < 4294967296
      rw [List.length_replicate]
      decide
  have hdata : (writeAll e mainWrites).Data ++ encodeRecord e foo (List.replicate 4023 0)
      = (writeAll e (mainWrites ++ [(foo, List.replicate 4023 0)])).Data := by
    simp only [writeAll, writesFrom, List.foldl_append, List.foldl_cons, List.foldl_nil,
      KeyValueStore.Write]
  rw [main_store, hdrop, hdata, rebuildIndex_writeAll e _ hws []]
  rfl

theorem lastWritten_shadowed (z : List Byte) :
    lastWritten foo (mainWrites ++ [(foo, z)]) = some z := by
  rfl

theorem read_foo_shadowed (e : Endian) :
    (writeAll e (mainWrites ++ [(foo, List.replicate 4023 0)])).Read e foo
      = Except.ok (List.replicate 4023 0) := by
  refine answers_read e _ foo _ (answers_writesFrom e foo _ _ ?_ {}
    (Or.inl (lastWritten_shadowed _)))
  intro p hp
  rcases List.mem_append.mp hp with h | h
  · exact mainWrites_fit p h
  · rw [List.mem_singleton] at h
    subst h
    refine ⟨by decide, ?_⟩
    show (List.replicate 4023 (0 : Byte)).length < 4294967296
    rw [List.length_replicate]
    decide

/-- C7, as stated, fails: `main` reads back all `shmSize` bytes of the region, and
when the file already held the record of `"foo"` with 4023 zero bytes after its
first 62 bytes, the rebuilt store `kvs2` answers `Read("foo")` with those 4023
bytes and not with `"bar"`, for either byte order of the length fields. -/
theorem main_scenario_shadowed :
    ((main Endian.little (shadowFile Endian.little) none none).2.map
        (fun B => B.Read Endian.little foo)
      = some (Except.ok (List.replicate 4023 0))) ∧
    ((main Endian.big (shadowFile Endian.big) none none).2.map
        (fun B => B.Read Endian.big foo)
      = some (Except.ok (List.replicate 4023 0))) ∧
    (Except.ok (List.replicate 4023 0) : Except KvError (List Byte)) ≠ Except.ok bar := by
  refine ⟨?_, ?_, ?_⟩
  · rw [main_store_shadowed, Option.map_some', read_foo_shadowed]
  · rw [main_store_shadowed, Option.map_some', read_foo_shadowed]
  · intro h
    have h' : List.replicate 4023 (0 : Byte) = bar := by
      injection h
    have hl := congrArg List.length h'
    rw [List.length_replicate] at hl
    exact absurd hl (by decide)

/-- C7, amended (the scenario of `main` on a region that is zero after the first
62 bytes, as a newly created file is): with both lock acquisitions successful,
`main` gets a store `kvs2` from the `shmSize` bytes it reads back, and after
`RebuildIndex` that store answers `Read("foo")` with `"bar"`, `Read("foo3")` with
`"bar3"`, `Read("foo2")` with `"bar2"`, and `Read("missing")` with `KeyNotFound`. -/
theorem main_scenario_zero_tail (e : Endian) (file : List Byte)
    (hz : (mapShm file).1.mem.drop 62 = List.replicate 4034 0) :
    ∃ B : KeyValueStore, (main e file none none).2 = some B ∧
      B.Read e foo = Except.ok bar ∧
      B.Read e foo3 = Except.ok bar3 ∧
      B.Read e foo2 = Except.ok bar2 ∧
      B.Read e missing = Except.error KvError.KeyNotFound := by
  have hrec := rebuildLoop_records e mainWrites mainWrites_fit (List.replicate 4034 0)
    (504 + 1 + 3588) {}
  obtain ⟨idx', hz1, hz2⟩ := rebuildLoop_zero_tail e 504 (writeAll e mainWrites).Data
    (writeAll e mainWrites).Index 3588
  have hloop : KeyValueStore.rebuildLoop e
      ((writeAll e mainWrites).Data ++ List.replicate 4034 0)
      (((writeAll e mainWrites).Data ++ List.replicate 4034 0).length + 1) 0 []
      = some (idx', some KvError.MalformedRecord) := by
    have hlen : ((writeAll e mainWrites).Data ++ List.replicate 4034 (0 : Byte)).length + 1
        = mainWrites.length + (504 + 1 + 3588) := by
      rw [List.length_append, mainWrites_data_length, List.length_replicate]
      rfl
    rw [hlen]
    exact hrec.trans hz1
  have hB : (main e file none none).2
      = some { Data := (writeAll e mainWrites).Data ++ List.replicate 4034 0,
               Index := idx' } := by
    rw [main_store, hz]
    simp only [KeyValueStore.RebuildIndex]
    rw [hloop]
    rfl
  have hans : ∀ key value : List Byte, key ≠ [] → lastWritten key mainWrites = some value →
      KeyValueStore.Read e ⟨(writeAll e mainWrites).Data ++ List.replicate 4034 0, idx'⟩ key
        = Except.ok value := by
    intro key value hne hl
    exact answers_writesFrom e key value mainWrites mainWrites_fit {} (Or.inl hl)
      (List.replicate 4034 0) idx' (hz2 key hne)
  refine ⟨_, hB, hans foo bar (by decide) (by decide), hans foo3 bar3 (by decide) (by decide),
    hans foo2 bar2 (by decide) (by decide), ?_⟩
  have hm : KvIndex.get missing idx' = none := by
    rw [hz2 missing (by decide)]
    cases e <;> rfl
  simp only [KeyValueStore.Read, hm]

theorem main_scenario_zero_tail_witness :
    ∃ B : KeyValueStore, (main Endian.little [] none none).2 = some B ∧
      B.Read Endian.little foo = Except.ok bar ∧
      B.Read Endian.little foo3 = Except.ok bar3 ∧
      B.Read Endian.little foo2 = Except.ok bar2 ∧
      B.Read Endian.little missing = Except.error KvError.KeyNotFound :=
  main_scenario_zero_tail Endian.little [] (by
    simp only [mapShm, List.nil_append, List.take_replicate, List.drop_replicate]
    rfl)

end ShmShare
